import Mathlib

/-!
Verification of the toy payments engine ledger core.

Shallow embedding of the ledger state machine of the repository:
* `src/account.rs` — `Transaction`, `Transaction::validate`, `Account` and its
  operations (`deposit`, `withdrawal`, `dispute`, `resolve`, `chargeback`,
  `process_transaction`, the balance accessors, `print`) and the `round`
  helper;
* `src/account_manager.rs` — `AccountManager::process_transaction` (routing,
  lazy account creation) and `AccountManager::output_accounts`.

Modelling conventions:
* Rust `HashMap<u32, T>` is modelled by an association list
  `List (ℕ × T)`; `insert` prepends after erasing the key, `remove` filters
  the key out, lookup is `List.lookup`.  This is observationally the content
  of a `HashMap` (iteration order is irrelevant: the only fold taken over a
  map is a sum of rationals, which is commutative).
* `f64` numeric values are modelled as exact rationals `ℚ`; `u16`/`u32`
  identifiers as `ℕ` (no arithmetic is performed on them).
* The floating-point *classification* used by `Transaction::validate`
  (`f64::is_normal`, `f64::is_sign_positive`) is modelled by the dedicated
  type `Fp` carrying the IEEE class of the value, since `validate` inspects
  only the class and the sign bit.
* The `as i32` cast inside `round` is the Rust saturating float-to-int cast:
  truncation toward zero clamped to the `i32` range.
-/

namespace ToyPayments

/-- The possible kinds of transactions (`TransactionType` in `src/account.rs`). -/
inductive TransactionType where
  | deposit
  | withdrawal
  | dispute
  | resolve
  | chargeback
deriving DecidableEq

/-- A single transaction record (`Transaction` in `src/account.rs`):
`r#type`, `client: u16`, `tx: u32`, `amount: Option<f64>`.
The numeric value of the amount is modelled as an exact rational. -/
structure Transaction where
  type : TransactionType
  client : ℕ
  tx : ℕ
  amount : Option ℚ
deriving DecidableEq

/-! Association-list model of `HashMap<u32, T>`. -/

/-- Model of `HashMap::remove` (content view): drop every entry stored under key `k`. -/
def mapErase (k : ℕ) (m : List (ℕ × β)) : List (ℕ × β) :=
  m.filter (fun p => p.1 != k)

/-- Model of `HashMap::insert` (content view): the new binding shadows any old one. -/
def mapInsert (k : ℕ) (v : β) (m : List (ℕ × β)) : List (ℕ × β) :=
  (k, v) :: mapErase k m

/-- The key set of the map, as a list. -/
def mapKeys (m : List (ℕ × β)) : List ℕ :=
  m.map Prod.fst

/-- Map from tx id to transaction, the type of `Account.transactions` and
`Account.held_transactions`. -/
abbrev TxMap := List (ℕ × Transaction)

/-! Model of `Account` (`src/account.rs`). -/

/-- Per-client account state (`Account` in `src/account.rs`):
`transactions` are the posted deposits/withdrawals, `held_transactions` the
transactions currently under dispute. -/
structure Account where
  transactions : TxMap
  held_transactions : TxMap
  available_balance : ℚ
  frozen : Bool
  client_id : ℕ
deriving DecidableEq

namespace Account

/-- Rust `Account::new(client_id)`: empty maps, zero balance, not frozen. -/
def new (client_id : ℕ) : Account :=
  { transactions := [], held_transactions := [],
    available_balance := 0, frozen := false, client_id := client_id }

/-- Rust `Account::withdrawal`: succeeds iff `available_balance >= amount`,
decreasing the available balance; returns the success flag together with the
updated state (the Rust method mutates `self` and returns `bool`). -/
def withdrawal (a : Account) (amount : ℚ) : Bool × Account :=
  if a.available_balance ≥ amount then
    (true, { a with available_balance := a.available_balance - amount })
  else
    (false, a)

/-- Rust `Account::deposit`: unconditionally add the amount to the available
balance. -/
def deposit (a : Account) (amount : ℚ) : Account :=
  { a with available_balance := a.available_balance + amount }

/-- Rust `Account::dispute`: if `disputed.tx` is a key of `transactions`, remove
that stored transaction, subtract *its* stored amount (`unwrap_or(0.0)`)
from the available balance, and insert it into `held_transactions` keyed by
the stored transaction's own `tx` field; otherwise do nothing. -/
def dispute (a : Account) (disputed : Transaction) : Account :=
  match a.transactions.lookup disputed.tx with
  | some transaction =>
      { a with
        transactions := mapErase disputed.tx a.transactions,
        available_balance := a.available_balance - transaction.amount.getD 0,
        held_transactions :=
          mapInsert transaction.tx transaction a.held_transactions }
  | none => a

/-- Rust `Account::resolve`: if `resolved.tx` is a key of `held_transactions`,
remove it from there, add its stored amount back to the available balance,
and reinsert it into `transactions`; otherwise do nothing. -/
def resolve (a : Account) (resolved : Transaction) : Account :=
  match a.held_transactions.lookup resolved.tx with
  | some transaction =>
      { a with
        held_transactions := mapErase resolved.tx a.held_transactions,
        available_balance := a.available_balance + transaction.amount.getD 0,
        transactions := mapInsert transaction.tx transaction a.transactions }
  | none => a

/-- Rust `Account::chargeback`: if `charged_back.tx` is a key of
`held_transactions`, remove it (the amount is added back nowhere) and set
`frozen`; otherwise do nothing. -/
def chargeback (a : Account) (charged_back : Transaction) : Account :=
  match a.held_transactions.lookup charged_back.tx with
  | some _ =>
      { a with
        held_transactions := mapErase charged_back.tx a.held_transactions,
        frozen := true }
  | none => a

/-- Rust `Account::get_available_amount`. -/
def get_available_amount (a : Account) : ℚ :=
  a.available_balance

/-- Rust `Account::get_held_amount`: running sum (`total += amount.unwrap_or(0.0)`)
over the values of `held_transactions`. -/
def get_held_amount (a : Account) : ℚ :=
  a.held_transactions.foldl (fun total p => total + p.2.amount.getD 0) 0

/-- Rust `Account::get_total_amount`: `available_balance + get_held_amount`. -/
def get_total_amount (a : Account) : ℚ :=
  a.available_balance + a.get_held_amount

/-- Rust `Account::is_frozen`.  The source documents it as "Returns true if the
client's account is frozen and should not process transactions"; note that
no code path of the repository ever calls it. -/
def is_frozen (a : Account) : Bool :=
  a.frozen

/-- Rust `Account::process_transaction`: dispatch on the transaction kind.
A deposit is recorded unconditionally; a withdrawal is recorded only when it
succeeded; the other kinds go to their handlers.  Amounts are read with
`unwrap_or(0.0)`.  Note the source performs no `frozen` check. -/
def process_transaction (a : Account) (t : Transaction) : Account :=
  match t.type with
  | .deposit =>
      let a := a.deposit (t.amount.getD 0)
      { a with transactions := mapInsert t.tx t a.transactions }
  | .withdrawal =>
      let r := a.withdrawal (t.amount.getD 0)
      if r.1 then
        { r.2 with transactions := mapInsert t.tx t r.2.transactions }
      else
        r.2
  | .dispute => a.dispute t
  | .resolve => a.resolve t
  | .chargeback => a.chargeback t

end Account

/-- Fold a list of transactions through `Account::process_transaction`. -/
def processAll (a : Account) (ts : List Transaction) : Account :=
  ts.foldl Account.process_transaction a

/-! Model of `round` (`src/account.rs`). -/

/-- Truncation of a rational toward zero (the rounding mode of Rust's
float-to-int `as` cast). -/
def truncTowardZero (q : ℚ) : ℤ :=
  if 0 ≤ q then ⌊q⌋ else ⌈q⌉

/-- Rust's `f64 as i32` cast: truncate toward zero, saturating at the `i32`
range. -/
def castToI32 (q : ℚ) : ℤ :=
  max (-2147483648) (min 2147483647 (truncTowardZero q))

/-- Function `round` in `src/account.rs`: `let temp = (num * 10000.0) as i32;
temp as f64 / 10000.0`. -/
def round (num : ℚ) : ℚ :=
  let temp := castToI32 (num * 10000)
  (temp : ℚ) / 10000

/-- The rounding procedure in the words of the spec: "multiply by 10 000,
truncate to an integer, divide by 10 000" (no intermediate `i32`). -/
def specRound (num : ℚ) : ℚ :=
  (truncTowardZero (num * 10000) : ℚ) / 10000

/-- Rust `Account::print`: the summary line of one account, as its tuple of
fields `(client, available, held, total, locked)` with the three numeric
fields passed through `round`. -/
def Account.print (a : Account) : ℕ × ℚ × ℚ × ℚ × Bool :=
  (a.client_id, round a.get_available_amount, round a.get_held_amount,
   round a.get_total_amount, a.frozen)

/-! Model of `AccountManager` (`src/account_manager.rs`). -/

/-- Ledger-wide account store keyed by client id
(`AccountManager.accounts`). -/
structure AccountManager where
  accounts : List (ℕ × Account)
deriving DecidableEq

namespace AccountManager

/-- Rust `AccountManager::default()`: empty account map. -/
def default : AccountManager := { accounts := [] }

/-- Rust `AccountManager::process_transaction` (lines 178–193 of
`src/account_manager.rs`): look the client's account up, creating it first
when absent, and hand the transaction to `Account::process_transaction`.
The source performs no validation call and no `frozen` check before
dispatching. -/
def process_transaction (m : AccountManager) (t : Transaction) : AccountManager :=
  match m.accounts.lookup t.client with
  | some account =>
      { accounts := mapInsert t.client (account.process_transaction t) m.accounts }
  | none =>
      let new_account := Account.new t.client
      let new_account := new_account.process_transaction t
      { accounts := mapInsert new_account.client_id new_account m.accounts }

/-- The header line printed by `AccountManager::output_accounts`. -/
def headerLine : String := "client, available, held, total, locked"

/-- Rust `AccountManager::output_accounts` (lines 171–174 of
`src/account_manager.rs`): prints the header line and nothing else — the
body after the header is the source comment `// TODO print all account
info`, so no account line is ever produced. -/
def output_accounts (_ : AccountManager) : List String :=
  [headerLine]

end AccountManager

/-- Fold a list of transactions through
`AccountManager::process_transaction`, as the `main.rs` loop does. -/
def runManager (m : AccountManager) (ts : List Transaction) : AccountManager :=
  ts.foldl AccountManager.process_transaction m

/-! Floating-point classification and `Transaction::validate`. -/

/-- The IEEE-754 class of an `f64` value together with its sign bit: exactly
the information `f64::is_normal` and `f64::is_sign_positive` read. -/
inductive Fp where
  | nan (sgnPos : Bool)
  | inf (sgnPos : Bool)
  | zero (sgnPos : Bool)
  | subnormal (sgnPos : Bool)
  | normal (sgnPos : Bool)
deriving DecidableEq

namespace Fp

/-- Rust `f64::is_normal`: neither zero, infinite, subnormal, nor NaN. -/
def is_normal : Fp → Bool
  | .normal _ => true
  | _ => false

/-- Rust `f64::is_sign_positive`: the sign bit is clear. -/
def is_sign_positive : Fp → Bool
  | .nan s => s
  | .inf s => s
  | .zero s => s
  | .subnormal s => s
  | .normal s => s

/-- The value is finite (not NaN and not infinite). -/
def isFinite : Fp → Bool
  | .nan _ => false
  | .inf _ => false
  | _ => true

/-- The value is a NaN. -/
def isNaN : Fp → Bool
  | .nan _ => true
  | _ => false

/-- The value is subnormal. -/
def isSubnormal : Fp → Bool
  | .subnormal _ => true
  | _ => false

/-- The value is a (signed) zero. -/
def isZero : Fp → Bool
  | .zero _ => true
  | _ => false

/-- The value is strictly positive: finite or infinite with clear sign bit
and not zero; for the validation claim only the finite cases matter. -/
def isStrictlyPos (x : Fp) : Bool :=
  x.is_sign_positive && !x.isZero && !x.isNaN

end Fp

/-- A transaction record with the amount kept at the floating-point
classification level, the view `Transaction::validate` needs. -/
structure FTransaction where
  type : TransactionType
  client : ℕ
  tx : ℕ
  amount : Option Fp
deriving DecidableEq

/-- Rust `Transaction::validate` (lines 40–59 of `src/account.rs`): for a
withdrawal or deposit the amount must be `Some` and satisfy
`is_normal() && is_sign_positive()`; any other kind is passed through. -/
def FTransaction.validate (t : FTransaction) : Option FTransaction :=
  if t.type = .withdrawal ∨ t.type = .deposit then
    match t.amount with
    | some amount =>
        if amount.is_normal && amount.is_sign_positive then some t else none
    | none => none
  else
    some t

/-- Sum of the stored amounts (`unwrap_or(0.0)`) of all entries of a tx map. -/
def amountSum (m : TxMap) : ℚ :=
  (m.map (fun p => p.2.amount.getD 0)).sum

/-- Tx ids a single `Account::process_transaction` step posts into the
`transactions` map: a deposit always posts its id, a withdrawal posts it
exactly when it succeeds (`available_balance >= amount`), and the remaining
kinds post nothing new (dispute/resolve only relocate an already-posted
id). -/
def postedIds (a : Account) (t : Transaction) : List ℕ :=
  match t.type with
  | .deposit => [t.tx]
  | .withdrawal =>
      if a.available_balance ≥ t.amount.getD 0 then [t.tx] else []
  | _ => []

/-- Trace of all tx ids successfully posted while processing the stream, in
order.  The input contract of the spec — "tx ids are unique among all
transactions ever successfully posted" — is `Nodup` of this trace. -/
def runPosted : Account → List Transaction → List ℕ
  | _, [] => []
  | a, t :: ts => postedIds a t ++ runPosted (a.process_transaction t) ts

/-- The invariants of the spec, §3: the posted and held key sets are
disjoint, the held balance equals the sum of the stored amounts over held,
and the total balance equals available plus held. -/
def Account.invariants (a : Account) : Prop :=
  (∀ k ∈ mapKeys a.transactions, k ∉ mapKeys a.held_transactions) ∧
  a.get_held_amount = amountSum a.held_transactions ∧
  a.get_total_amount = a.available_balance + a.get_held_amount

/-- Well-formedness carried through the C8 induction: both key lists have no
duplicates and are disjoint, every stored record's `tx` field equals the key
it is stored under, and every key present in either map was posted at some
earlier point (belongs to `seen`). -/
structure LedgerWF (a : Account) (seen : List ℕ) : Prop where
  nodupPosted : (mapKeys a.transactions).Nodup
  nodupHeld : (mapKeys a.held_transactions).Nodup
  disj : ∀ k ∈ mapKeys a.transactions, k ∉ mapKeys a.held_transactions
  keyedPosted : ∀ p ∈ a.transactions, Transaction.tx p.2 = p.1
  keyedHeld : ∀ p ∈ a.held_transactions, Transaction.tx p.2 = p.1
  seenPosted : ∀ k ∈ mapKeys a.transactions, k ∈ seen
  seenHeld : ∀ k ∈ mapKeys a.held_transactions, k ∈ seen

/-! Helper lemmas about the association-list map model. -/

theorem lookup_eq_none_iff (k : ℕ) (m : List (ℕ × β)) :
    m.lookup k = none ↔ k ∉ mapKeys m := by
  induction m with
  | nil => simp [mapKeys]
  | cons p m ih =>
      obtain ⟨k', v⟩ := p
      by_cases h : k = k'
      · subst h
        simp [List.lookup_cons, mapKeys]
      · rw [List.lookup_cons]
        simp [beq_false_of_ne h, mapKeys, h] at ih ⊢
        exact ih

theorem mem_of_lookup_eq_some {k : ℕ} {m : List (ℕ × β)} {v : β}
    (h : m.lookup k = some v) : (k, v) ∈ m := by
  induction m with
  | nil => simp at h
  | cons p m ih =>
      obtain ⟨k', w⟩ := p
      by_cases hk : k = k'
      · subst hk
        rw [List.lookup_cons] at h
        simp at h
        simp [h]
      · rw [List.lookup_cons] at h
        simp [beq_false_of_ne hk] at h
        exact List.mem_cons_of_mem _ (ih h)

theorem mem_mapKeys_of_lookup_eq_some {k : ℕ} {m : List (ℕ × β)} {v : β}
    (h : m.lookup k = some v) : k ∈ mapKeys m :=
  List.mem_map_of_mem Prod.fst (mem_of_lookup_eq_some h)

theorem mapErase_eq_self_of_not_mem {k : ℕ} {m : List (ℕ × β)}
    (h : k ∉ mapKeys m) : mapErase k m = m :=
  List.filter_eq_self.mpr fun p hp => by
    have hmem : p.1 ∈ mapKeys m := List.mem_map_of_mem Prod.fst hp
    simp only [bne_iff_ne, ne_eq]
    intro hh
    exact h (hh ▸ hmem)

theorem mapKeys_mapErase (k : ℕ) (m : List (ℕ × β)) :
    mapKeys (mapErase k m) = (mapKeys m).filter (fun x => x != k) := by
  induction m with
  | nil => rfl
  | cons p m ih =>
      by_cases h : p.1 = k <;>
        simp [mapErase, mapKeys, List.filter_cons, h] at ih ⊢ <;>
        simp [ih]

theorem not_mem_mapKeys_mapErase_self (k : ℕ) (m : List (ℕ × β)) :
    k ∉ mapKeys (mapErase k m) := by
  rw [mapKeys_mapErase]
  simp

theorem mem_mapKeys_mapErase {j k : ℕ} {m : List (ℕ × β)} :
    j ∈ mapKeys (mapErase k m) ↔ j ∈ mapKeys m ∧ j ≠ k := by
  rw [mapKeys_mapErase]
  simp

theorem mapKeys_mapErase_nodup {k : ℕ} {m : List (ℕ × β)}
    (h : (mapKeys m).Nodup) : (mapKeys (mapErase k m)).Nodup := by
  rw [mapKeys_mapErase]
  exact h.filter _

theorem mapKeys_mapInsert (k : ℕ) (v : β) (m : List (ℕ × β)) :
    mapKeys (mapInsert k v m) = k :: mapKeys (mapErase k m) :=
  rfl

theorem mapKeys_mapInsert_nodup {k : ℕ} {v : β} {m : List (ℕ × β)}
    (h : (mapKeys m).Nodup) : (mapKeys (mapInsert k v m)).Nodup := by
  rw [mapKeys_mapInsert]
  exact List.nodup_cons.mpr ⟨not_mem_mapKeys_mapErase_self k m, mapKeys_mapErase_nodup h⟩

theorem mem_mapKeys_mapInsert {j k : ℕ} {v : β} {m : List (ℕ × β)} :
    j ∈ mapKeys (mapInsert k v m) ↔ j = k ∨ (j ∈ mapKeys m ∧ j ≠ k) := by
  rw [mapKeys_mapInsert]
  simp [mem_mapKeys_mapErase]

theorem mem_of_mem_mapErase {k : ℕ} {m : List (ℕ × β)} {p : ℕ × β}
    (h : p ∈ mapErase k m) : p ∈ m :=
  List.mem_of_mem_filter h

/-! Helper lemmas about sums of stored amounts. -/

theorem foldl_add_eq_add_sum (g : α → ℚ) (l : List α) (c : ℚ) :
    l.foldl (fun s x => s + g x) c = c + (l.map g).sum := by
  induction l generalizing c with
  | nil => simp
  | cons x l ih =>
      simp [List.foldl, ih (c + g x)]
      ring

theorem get_held_amount_eq_amountSum (a : Account) :
    a.get_held_amount = amountSum a.held_transactions := by
  have := foldl_add_eq_add_sum (fun p : ℕ × Transaction => p.2.amount.getD 0)
    a.held_transactions 0
  simpa [Account.get_held_amount, amountSum] using this

theorem amountSum_mapInsert (k : ℕ) (v : Transaction) (m : TxMap) :
    amountSum (mapInsert k v m) = v.amount.getD 0 + amountSum (mapErase k m) := by
  simp [amountSum, mapInsert]

theorem amountSum_mapErase_of_lookup {k : ℕ} {m : TxMap} {v : Transaction}
    (hnd : (mapKeys m).Nodup) (h : m.lookup k = some v) :
    amountSum m = v.amount.getD 0 + amountSum (mapErase k m) := by
  induction m with
  | nil => simp at h
  | cons p m ih =>
      obtain ⟨k', w⟩ := p
      have hnd' : (mapKeys m).Nodup := (List.nodup_cons.mp hnd).2
      by_cases hk : k = k'
      · subst hk
        rw [List.lookup_cons] at h
        simp at h
        subst h
        have hknotin : k ∉ mapKeys m := (List.nodup_cons.mp hnd).1
        have herase : mapErase k m = m := mapErase_eq_self_of_not_mem hknotin
        have hstep : mapErase k ((k, w) :: m) = m := by
          simp [mapErase, List.filter_cons] at herase ⊢
          exact herase
        rw [hstep]
        simp [amountSum]
      · rw [List.lookup_cons] at h
        simp [beq_false_of_ne hk] at h
        have hb : (k' != k) = true := by
          simp only [bne_iff_ne, ne_eq]
          exact fun hh => hk hh.symm
        have hstep : mapErase k ((k', w) :: m) = (k', w) :: mapErase k m := by
          simp [mapErase, List.filter_cons, hb]
        rw [hstep]
        have hrec := ih hnd' h
        simp [amountSum] at hrec ⊢
        rw [hrec]
        ring

theorem lookup_mapInsert_self (k : ℕ) (v : β) (m : List (ℕ × β)) :
    (mapInsert k v m).lookup k = some v := by
  simp [mapInsert, List.lookup_cons]

/-! Dispatch lemmas for `Account::process_transaction`. -/

theorem process_transaction_of_dispute {a : Account} {t : Transaction}
    (ht : t.type = .dispute) : a.process_transaction t = a.dispute t := by
  simp [Account.process_transaction, ht]

theorem process_transaction_of_resolve {a : Account} {t : Transaction}
    (ht : t.type = .resolve) : a.process_transaction t = a.resolve t := by
  simp [Account.process_transaction, ht]

theorem process_transaction_of_chargeback {a : Account} {t : Transaction}
    (ht : t.type = .chargeback) : a.process_transaction t = a.chargeback t := by
  simp [Account.process_transaction, ht]

/-! Claim theorems. -/

/-- C4: for every account state and amount, a withdrawal succeeds iff
`available_balance >= amount`; on success it decreases the available balance
(and hence the total) by exactly the amount and records the transaction into
the posted map; on failure the whole account state is unchanged and the
transaction is recorded nowhere. -/
theorem C4_withdrawal_exact (a : Account) (t : Transaction)
    (ht : t.type = .withdrawal) :
    ((a.withdrawal (t.amount.getD 0)).1 = true ↔
        t.amount.getD 0 ≤ a.available_balance) ∧
    (t.amount.getD 0 ≤ a.available_balance →
      a.process_transaction t =
        { a with available_balance := a.available_balance - t.amount.getD 0,
                 transactions := mapInsert t.tx t a.transactions } ∧
      (a.process_transaction t).get_total_amount
        = a.get_total_amount - t.amount.getD 0) ∧
    (¬ t.amount.getD 0 ≤ a.available_balance →
      a.process_transaction t = a) := by
  refine ⟨?_, ?_, ?_⟩
  · by_cases h : t.amount.getD 0 ≤ a.available_balance <;>
      simp [Account.withdrawal, ge_iff_le, h]
  · intro h
    constructor
    · simp [Account.process_transaction, ht, Account.withdrawal, ge_iff_le, h]
    · simp [Account.process_transaction, ht, Account.withdrawal, ge_iff_le, h,
        Account.get_total_amount, Account.get_held_amount]
      ring
  · intro h
    simp [Account.process_transaction, ht, Account.withdrawal, ge_iff_le, h]

/-- C4 witness: on a fresh account (zero balance) a withdrawal of 5 fails and
leaves the account exactly as it was. -/
theorem C4_withdrawal_exact_witness :
    (Account.new 1).process_transaction ⟨.withdrawal, 1, 2, some 5⟩
      = Account.new 1 :=
  (C4_withdrawal_exact (Account.new 1) ⟨.withdrawal, 1, 2, some 5⟩ rfl).2.2
    (by norm_num [Account.new])

/-- C5: for every account state and dispute transaction, an absent referenced
tx id makes the dispute a complete no-op; a present one is removed from
posted, its own stored amount (never the dispute record's amount field) is
subtracted from the available balance and it is inserted into held, leaving
the total balance unchanged (stated under key disjointness, which holds for
all reachable states, cf. C8). -/
theorem C5_dispute_moves_stored_amount (a : Account) (d : Transaction)
    (ht : d.type = .dispute) :
    (∀ q, a.process_transaction { d with amount := q }
        = a.process_transaction d) ∧
    (a.transactions.lookup d.tx = none → a.process_transaction d = a) ∧
    (∀ tr, a.transactions.lookup d.tx = some tr →
      a.process_transaction d =
        { a with transactions := mapErase d.tx a.transactions,
                 available_balance := a.available_balance - tr.amount.getD 0,
                 held_transactions := mapInsert tr.tx tr a.held_transactions } ∧
      (tr.tx ∉ mapKeys a.held_transactions →
        (a.process_transaction d).get_total_amount = a.get_total_amount)) := by
  refine ⟨?_, ?_, ?_⟩
  · intro q
    rw [process_transaction_of_dispute ht, process_transaction_of_dispute (by simpa using ht)]
    simp [Account.dispute]
  · intro h
    rw [process_transaction_of_dispute ht]
    simp [Account.dispute, h]
  · intro tr h
    rw [process_transaction_of_dispute ht]
    refine ⟨by simp [Account.dispute, h], ?_⟩
    intro hnot
    have herase : mapErase tr.tx a.held_transactions = a.held_transactions :=
      mapErase_eq_self_of_not_mem hnot
    simp [Account.dispute, h, Account.get_total_amount,
      get_held_amount_eq_amountSum, amountSum_mapInsert, herase]
    ring

/-- C5 witness: disputing the single posted deposit of a one-deposit account
leaves the total balance unchanged. -/
theorem C5_dispute_moves_stored_amount_witness :
    (((Account.new 1).process_transaction
        ⟨.deposit, 1, 1, some 100⟩).process_transaction
          ⟨.dispute, 1, 1, none⟩).get_total_amount
      = ((Account.new 1).process_transaction
          ⟨.deposit, 1, 1, some 100⟩).get_total_amount :=
  ((C5_dispute_moves_stored_amount
      ((Account.new 1).process_transaction ⟨.deposit, 1, 1, some 100⟩)
      ⟨.dispute, 1, 1, none⟩ rfl).2.2 ⟨.deposit, 1, 1, some 100⟩ rfl).2
    (by simp [Account.new, Account.process_transaction, Account.deposit,
      mapInsert, mapErase, mapKeys])

/-- C7: for every account state and chargeback transaction, an absent
referenced tx id makes the chargeback a no-op; a present one is removed from
held (its amount permanently forfeited from the total balance — the
available balance is not credited) and the frozen flag is set; in particular
deposit(100) → dispute → chargeback of the same tx yields available = 0,
held = 0, total = 0 and frozen = true. -/
theorem C7_chargeback_forfeits_and_freezes :
    (∀ (a : Account) (t : Transaction), t.type = .chargeback →
      (a.held_transactions.lookup t.tx = none → a.process_transaction t = a) ∧
      (∀ tr, a.held_transactions.lookup t.tx = some tr →
        a.process_transaction t =
          { a with held_transactions := mapErase t.tx a.held_transactions,
                   frozen := true } ∧
        ((mapKeys a.held_transactions).Nodup →
          (a.process_transaction t).get_total_amount
            = a.get_total_amount - tr.amount.getD 0 ∧
          (a.process_transaction t).available_balance
            = a.available_balance))) ∧
    ((processAll (Account.new 1)
        [⟨.deposit, 1, 1, some 100⟩, ⟨.dispute, 1, 1, none⟩,
         ⟨.chargeback, 1, 1, none⟩]).get_available_amount = 0 ∧
      (processAll (Account.new 1)
        [⟨.deposit, 1, 1, some 100⟩, ⟨.dispute, 1, 1, none⟩,
         ⟨.chargeback, 1, 1, none⟩]).get_held_amount = 0 ∧
      (processAll (Account.new 1)
        [⟨.deposit, 1, 1, some 100⟩, ⟨.dispute, 1, 1, none⟩,
         ⟨.chargeback, 1, 1, none⟩]).get_total_amount = 0 ∧
      (processAll (Account.new 1)
        [⟨.deposit, 1, 1, some 100⟩, ⟨.dispute, 1, 1, none⟩,
         ⟨.chargeback, 1, 1, none⟩]).frozen = true) := by
  constructor
  · intro a t ht
    refine ⟨?_, ?_⟩
    · intro h
      rw [process_transaction_of_chargeback ht]
      simp [Account.chargeback, h]
    · intro tr h
      rw [process_transaction_of_chargeback ht]
      refine ⟨by simp [Account.chargeback, h], ?_⟩
      intro hnd
      have hsum := amountSum_mapErase_of_lookup hnd h
      constructor
      · simp [Account.chargeback, h, Account.get_total_amount,
          get_held_amount_eq_amountSum]
        rw [hsum]
        ring
      · simp [Account.chargeback, h]
  · norm_num [processAll, Account.new, Account.process_transaction,
      Account.deposit, Account.dispute, Account.chargeback,
      Account.get_available_amount, Account.get_held_amount,
      Account.get_total_amount, mapInsert, mapErase, List.lookup]

/-- C6: starting from a fresh account, deposit of any amount then dispute of
that tx then resolve of the same tx yields a state identical to the deposit
alone (resolve is the exact inverse of dispute for the same tx id). -/
theorem C6_resolve_inverts_dispute (c n : ℕ) (q : ℚ) :
    processAll (Account.new c)
      [⟨.deposit, c, n, some q⟩, ⟨.dispute, c, n, none⟩, ⟨.resolve, c, n, none⟩]
      = processAll (Account.new c) [⟨.deposit, c, n, some q⟩] := by
  simp [processAll, Account.new, Account.process_transaction, Account.deposit,
    Account.dispute, Account.resolve, mapInsert, mapErase, List.lookup_cons,
    List.filter]

/-- C10: when a deposit arrives whose tx id is already a key of the posted
map, the new amount is still added to the available balance and the map
insert overwrites the previously stored transaction with the new one — a
later dispute of that id moves the new record's amount, the earlier record
being gone. -/
theorem C10_redeposit_overwrites (a : Account) (t told : Transaction)
    (ht : t.type = .deposit) (h : a.transactions.lookup t.tx = some told) :
    (a.process_transaction t).available_balance
      = a.available_balance + t.amount.getD 0 ∧
    (a.process_transaction t).transactions.lookup t.tx = some t ∧
    ∀ d, d.type = .dispute → d.tx = t.tx →
      ((a.process_transaction t).process_transaction d).available_balance
        = (a.process_transaction t).available_balance - t.amount.getD 0 := by
  refine ⟨?_, ?_, ?_⟩
  · simp [Account.process_transaction, ht, Account.deposit]
  · simp [Account.process_transaction, ht, Account.deposit, lookup_mapInsert_self]
  · intro d hd htx
    rw [process_transaction_of_dispute hd]
    have hlook : ((a.process_transaction t).transactions).lookup d.tx = some t := by
      rw [htx]
      simp [Account.process_transaction, ht, Account.deposit, lookup_mapInsert_self]
    simp [Account.dispute, hlook]

/-- C10 witness: redepositing 50 under the already-used tx id 1 raises the
available balance by 50. -/
theorem C10_redeposit_overwrites_witness :
    (((Account.new 1).process_transaction
        ⟨.deposit, 1, 1, some 100⟩).process_transaction
          ⟨.deposit, 1, 1, some 50⟩).available_balance
      = ((Account.new 1).process_transaction
          ⟨.deposit, 1, 1, some 100⟩).available_balance + 50 := by
  have h := (C10_redeposit_overwrites
      ((Account.new 1).process_transaction ⟨.deposit, 1, 1, some 100⟩)
      ⟨.deposit, 1, 1, some 50⟩ ⟨.deposit, 1, 1, some 100⟩ rfl rfl).1
  simpa using h

/-- Support lemma: for a deposit or withdrawal, `Transaction::validate`
accepts iff the amount is present, finite, not NaN, not subnormal, not zero
and strictly positive (the conjunction characterises exactly
`is_normal && is_sign_positive`). -/
theorem validate_deposit_withdrawal_iff (t : FTransaction)
    (ht : t.type = .deposit ∨ t.type = .withdrawal) :
    t.validate = some t ↔
      ∃ x, t.amount = some x ∧ x.isFinite ∧ x.isNaN = false ∧
        x.isSubnormal = false ∧ x.isZero = false ∧ x.isStrictlyPos := by
  have hcond : (t.type = .withdrawal ∨ t.type = .deposit) := ht.symm
  rcases hamt : t.amount with _ | x
  · simp [FTransaction.validate, hcond, hamt]
  · cases x <;> rename_i s <;> cases s <;>
      simp [FTransaction.validate, hcond, hamt, Fp.is_normal, Fp.is_sign_positive,
        Fp.isFinite, Fp.isNaN, Fp.isSubnormal, Fp.isZero, Fp.isStrictlyPos]

/-- Support lemma: `Transaction::validate` passes every dispute, resolve or
chargeback through unchanged, whatever its amount field holds. -/
theorem validate_passthrough (t : FTransaction)
    (ht : t.type = .dispute ∨ t.type = .resolve ∨ t.type = .chargeback) :
    t.validate = some t := by
  rcases ht with h | h | h <;> simp [FTransaction.validate, h]

/-- C2: validation rejects a deposit whose amount is a negative normal
float, yet `AccountManager::process_transaction` — which never invokes
`Transaction::validate` — hands it to the account, whose available balance
drops from 100 to 50.  The claim "a rejected one is discarded before
reaching any account" fails on the code. -/
theorem C2_rejected_deposit_reaches_account :
    FTransaction.validate ⟨.deposit, 1, 2, some (.normal false)⟩ = none ∧
    ((runManager AccountManager.default
        [⟨.deposit, 1, 1, some 100⟩]).accounts.lookup 1).map
        Account.available_balance = some 100 ∧
    ((runManager AccountManager.default
        [⟨.deposit, 1, 1, some 100⟩,
         ⟨.deposit, 1, 2, some (-50)⟩]).accounts.lookup 1).map
        Account.available_balance = some 50 := by
  refine ⟨by simp [FTransaction.validate, Fp.is_normal, Fp.is_sign_positive], ?_, ?_⟩ <;>
    norm_num [runManager, AccountManager.default, AccountManager.process_transaction,
      Account.new, Account.process_transaction, Account.deposit,
      mapInsert, mapErase, List.lookup]

/-- C1: after deposit(100) → dispute → chargeback the account is frozen with
zero balance, yet a subsequent deposit of 50 for the same client is applied
and raises the available balance to 50 — neither
`AccountManager::process_transaction` nor `Account::process_transaction`
checks the frozen flag, so the claim fails on the code. -/
theorem C1_frozen_account_still_mutates :
    ((runManager AccountManager.default
        [⟨.deposit, 1, 1, some 100⟩, ⟨.dispute, 1, 1, none⟩,
         ⟨.chargeback, 1, 1, none⟩]).accounts.lookup 1).map Account.frozen
      = some true ∧
    ((runManager AccountManager.default
        [⟨.deposit, 1, 1, some 100⟩, ⟨.dispute, 1, 1, none⟩,
         ⟨.chargeback, 1, 1, none⟩]).accounts.lookup 1).map
        Account.available_balance = some 0 ∧
    ((runManager AccountManager.default
        [⟨.deposit, 1, 1, some 100⟩, ⟨.dispute, 1, 1, none⟩,
         ⟨.chargeback, 1, 1, none⟩,
         ⟨.deposit, 1, 2, some 50⟩]).accounts.lookup 1).map
        Account.available_balance = some 50 := by
  refine ⟨?_, ?_, ?_⟩ <;>
    norm_num [runManager, AccountManager.default, AccountManager.process_transaction,
      Account.new, Account.process_transaction, Account.deposit, Account.dispute,
      Account.chargeback, mapInsert, mapErase, List.lookup]

/-- C3: a run that creates one account still reports only the header line —
`AccountManager::output_accounts` never prints the per-account lines (the
source body is the comment `TODO print all account info`), so the claim
"one line per known account" fails on the code. -/
theorem C3_report_has_no_account_lines :
    (runManager AccountManager.default
        [⟨.deposit, 1, 1, some 100⟩]).accounts.length = 1 ∧
    AccountManager.output_accounts
        (runManager AccountManager.default [⟨.deposit, 1, 1, some 100⟩])
      = [AccountManager.headerLine] := by
  constructor
  · rfl
  · rfl

/-- C9 counterexample: at the value 300000 the code's rounding is not the
claimed multiply–truncate–divide procedure: the `i32` cast saturates, so
`round 300000` is 214748.3647 rather than 300000. -/
theorem C9_round_not_pure_truncation :
    round 300000 ≠ specRound 300000 := by
  norm_num [round, castToI32, truncTowardZero, specRound]

/-- C9 (amended): whenever the scaled value lies within the `i32` range the
rendered value is exactly the 4-digit truncation toward zero (multiply by
10000, truncate, divide by 10000) — never round-half-up — and in particular
both 96.04091 and 96.04095 render as 96.0409. -/
theorem C9_round_truncates_within_i32 :
    (∀ q : ℚ, -2147483648 ≤ truncTowardZero (q * 10000) →
        truncTowardZero (q * 10000) ≤ 2147483647 →
        round q = specRound q) ∧
    round 96.04091 = 96.0409 ∧ round 96.04095 = 96.0409 ∧
    specRound 96.04091 = 96.0409 ∧ specRound 96.04095 = 96.0409 := by
  refine ⟨?_, ?_, ?_, ?_, ?_⟩
  · intro q h1 h2
    unfold round specRound castToI32
    rw [min_eq_right h2, max_eq_right h1]
  · norm_num [round, castToI32, truncTowardZero]
  · norm_num [round, castToI32, truncTowardZero]
  · norm_num [specRound, truncTowardZero]
  · norm_num [specRound, truncTowardZero]

/-! Machinery for C8. -/

theorem LedgerWF.mono {a : Account} {seen : List ℕ} (hwf : LedgerWF a seen)
    (l : List ℕ) : LedgerWF a (seen ++ l) := by
  refine ⟨hwf.nodupPosted, hwf.nodupHeld, hwf.disj, hwf.keyedPosted,
    hwf.keyedHeld, ?_, ?_⟩
  · intro k hk
    exact List.mem_append_left _ (hwf.seenPosted k hk)
  · intro k hk
    exact List.mem_append_left _ (hwf.seenHeld k hk)

theorem ledgerWF_insert_posted {a : Account} {seen : List ℕ} (t : Transaction)
    (hwf : LedgerWF a seen) (hnot : t.tx ∉ seen) (q : ℚ) :
    LedgerWF
      { transactions := mapInsert t.tx t a.transactions,
        held_transactions := a.held_transactions,
        available_balance := q, frozen := a.frozen, client_id := a.client_id }
      (seen ++ [t.tx]) := by
  constructor
  · exact mapKeys_mapInsert_nodup hwf.nodupPosted
  · exact hwf.nodupHeld
  · intro k hk hmem
    rcases mem_mapKeys_mapInsert.mp hk with rfl | ⟨hk1, -⟩
    · exact hnot (hwf.seenHeld _ hmem)
    · exact hwf.disj k hk1 hmem
  · intro p hp
    rcases List.mem_cons.mp hp with rfl | hp'
    · rfl
    · exact hwf.keyedPosted p (mem_of_mem_mapErase hp')
  · exact hwf.keyedHeld
  · intro k hk
    rcases mem_mapKeys_mapInsert.mp hk with rfl | ⟨hk1, -⟩
    · exact List.mem_append_right _ (List.mem_singleton_self _)
    · exact List.mem_append_left _ (hwf.seenPosted k hk1)
  · intro k hk
    exact List.mem_append_left _ (hwf.seenHeld k hk)

theorem ledgerWF_dispute_step {a : Account} {seen : List ℕ} {d tr : Transaction}
    (hwf : LedgerWF a seen) (h : a.transactions.lookup d.tx = some tr) (q : ℚ) :
    LedgerWF
      { transactions := mapErase d.tx a.transactions,
        held_transactions := mapInsert tr.tx tr a.held_transactions,
        available_balance := q, frozen := a.frozen, client_id := a.client_id }
      seen := by
  have htx : tr.tx = d.tx := hwf.keyedPosted (d.tx, tr) (mem_of_lookup_eq_some h)
  have hdmem : d.tx ∈ mapKeys a.transactions := mem_mapKeys_of_lookup_eq_some h
  constructor
  · exact mapKeys_mapErase_nodup hwf.nodupPosted
  · exact mapKeys_mapInsert_nodup hwf.nodupHeld
  · intro k hk hmem
    obtain ⟨hk1, hk2⟩ := mem_mapKeys_mapErase.mp hk
    rcases mem_mapKeys_mapInsert.mp hmem with rfl | ⟨hm1, -⟩
    · exact hk2 htx
    · exact hwf.disj k hk1 hm1
  · intro p hp
    exact hwf.keyedPosted p (mem_of_mem_mapErase hp)
  · intro p hp
    rcases List.mem_cons.mp hp with rfl | hp'
    · rfl
    · exact hwf.keyedHeld p (mem_of_mem_mapErase hp')
  · intro k hk
    obtain ⟨hk1, -⟩ := mem_mapKeys_mapErase.mp hk
    exact hwf.seenPosted k hk1
  · intro k hk
    rcases mem_mapKeys_mapInsert.mp hk with rfl | ⟨hk1, -⟩
    · exact htx ▸ hwf.seenPosted d.tx hdmem
    · exact hwf.seenHeld k hk1

theorem ledgerWF_resolve_step {a : Account} {seen : List ℕ} {r tr : Transaction}
    (hwf : LedgerWF a seen) (h : a.held_transactions.lookup r.tx = some tr)
    (q : ℚ) :
    LedgerWF
      { transactions := mapInsert tr.tx tr a.transactions,
        held_transactions := mapErase r.tx a.held_transactions,
        available_balance := q, frozen := a.frozen, client_id := a.client_id }
      seen := by
  have htx : tr.tx = r.tx := hwf.keyedHeld (r.tx, tr) (mem_of_lookup_eq_some h)
  have hdmem : r.tx ∈ mapKeys a.held_transactions := mem_mapKeys_of_lookup_eq_some h
  constructor
  · exact mapKeys_mapInsert_nodup hwf.nodupPosted
  · exact mapKeys_mapErase_nodup hwf.nodupHeld
  · intro k hk hmem
    obtain ⟨hm1, hm2⟩ := mem_mapKeys_mapErase.mp hmem
    rcases mem_mapKeys_mapInsert.mp hk with rfl | ⟨hk1, -⟩
    · exact hm2 htx
    · exact hwf.disj k hk1 hm1
  · intro p hp
    rcases List.mem_cons.mp hp with rfl | hp'
    · rfl
    · exact hwf.keyedPosted p (mem_of_mem_mapErase hp')
  · intro p hp
    exact hwf.keyedHeld p (mem_of_mem_mapErase hp)
  · intro k hk
    rcases mem_mapKeys_mapInsert.mp hk with rfl | ⟨hk1, -⟩
    · exact htx ▸ hwf.seenHeld r.tx hdmem
    · exact hwf.seenPosted k hk1
  · intro k hk
    obtain ⟨hk1, -⟩ := mem_mapKeys_mapErase.mp hk
    exact hwf.seenHeld k hk1

theorem ledgerWF_chargeback_step {a : Account} {seen : List ℕ} (k : ℕ)
    (hwf : LedgerWF a seen) :
    LedgerWF
      { transactions := a.transactions,
        held_transactions := mapErase k a.held_transactions,
        available_balance := a.available_balance, frozen := true,
        client_id := a.client_id }
      seen := by
  constructor
  · exact hwf.nodupPosted
  · exact mapKeys_mapErase_nodup hwf.nodupHeld
  · intro j hj hmem
    obtain ⟨hm1, -⟩ := mem_mapKeys_mapErase.mp hmem
    exact hwf.disj j hj hm1
  · exact hwf.keyedPosted
  · intro p hp
    exact hwf.keyedHeld p (mem_of_mem_mapErase hp)
  · exact hwf.seenPosted
  · intro j hj
    obtain ⟨hj1, -⟩ := mem_mapKeys_mapErase.mp hj
    exact hwf.seenHeld j hj1

theorem ledgerWF_step {a : Account} {seen : List ℕ} (t : Transaction)
    (hwf : LedgerWF a seen) (hnew : ∀ k ∈ postedIds a t, k ∉ seen) :
    LedgerWF (a.process_transaction t) (seen ++ postedIds a t) := by
  cases htype : t.type with
  | deposit =>
      have hnot : t.tx ∉ seen := hnew t.tx (by simp [postedIds, htype])
      have hstate : a.process_transaction t =
          { transactions := mapInsert t.tx t a.transactions,
            held_transactions := a.held_transactions,
            available_balance := a.available_balance + t.amount.getD 0,
            frozen := a.frozen, client_id := a.client_id } := by
        simp [Account.process_transaction, htype, Account.deposit]
      rw [hstate, show postedIds a t = [t.tx] from by simp [postedIds, htype]]
      exact ledgerWF_insert_posted t hwf hnot _
  | withdrawal =>
      by_cases hsucc : a.available_balance ≥ t.amount.getD 0
      · have hnot : t.tx ∉ seen := hnew t.tx (by simp [postedIds, htype, hsucc])
        have hstate : a.process_transaction t =
            { transactions := mapInsert t.tx t a.transactions,
              held_transactions := a.held_transactions,
              available_balance := a.available_balance - t.amount.getD 0,
              frozen := a.frozen, client_id := a.client_id } := by
          simp [Account.process_transaction, htype, Account.withdrawal, hsucc]
        rw [hstate,
          show postedIds a t = [t.tx] from by simp [postedIds, htype, hsucc]]
        exact ledgerWF_insert_posted t hwf hnot _
      · have hstate : a.process_transaction t = a := by
          simp [Account.process_transaction, htype, Account.withdrawal, hsucc]
        rw [hstate]
        exact hwf.mono _
  | dispute =>
      rw [show postedIds a t = [] from by simp [postedIds, htype]]
      rw [process_transaction_of_dispute htype]
      cases h : a.transactions.lookup t.tx with
      | none =>
          simp [Account.dispute, h]
          simpa using hwf.mono []
      | some tr =>
          have hstate : a.dispute t =
              { transactions := mapErase t.tx a.transactions,
                held_transactions := mapInsert tr.tx tr a.held_transactions,
                available_balance := a.available_balance - tr.amount.getD 0,
                frozen := a.frozen, client_id := a.client_id } := by
            simp [Account.dispute, h]
          rw [hstate]
          simpa using (ledgerWF_dispute_step hwf h _).mono []
  | resolve =>
      rw [show postedIds a t = [] from by simp [postedIds, htype]]
      rw [process_transaction_of_resolve htype]
      cases h : a.held_transactions.lookup t.tx with
      | none =>
          simp [Account.resolve, h]
          simpa using hwf.mono []
      | some tr =>
          have hstate : a.resolve t =
              { transactions := mapInsert tr.tx tr a.transactions,
                held_transactions := mapErase t.tx a.held_transactions,
                available_balance := a.available_balance + tr.amount.getD 0,
                frozen := a.frozen, client_id := a.client_id } := by
            simp [Account.resolve, h]
          rw [hstate]
          simpa using (ledgerWF_resolve_step hwf h _).mono []
  | chargeback =>
      rw [show postedIds a t = [] from by simp [postedIds, htype]]
      rw [process_transaction_of_chargeback htype]
      cases h : a.held_transactions.lookup t.tx with
      | none =>
          simp [Account.chargeback, h]
          simpa using hwf.mono []
      | some tr =>
          have hstate : a.chargeback t =
              { transactions := a.transactions,
                held_transactions := mapErase t.tx a.held_transactions,
                available_balance := a.available_balance, frozen := true,
                client_id := a.client_id } := by
            simp [Account.chargeback, h]
          rw [hstate]
          simpa using (ledgerWF_chargeback_step t.tx hwf).mono []

theorem runPosted_append (a : Account) (l1 l2 : List Transaction) :
    runPosted a (l1 ++ l2) = runPosted a l1 ++ runPosted (processAll a l1) l2 := by
  induction l1 generalizing a with
  | nil => simp [runPosted, processAll]
  | cons t l1 ih => simp [runPosted, processAll, ih, List.append_assoc]

theorem ledgerWF_run (ts : List Transaction) (a : Account) (seen : List ℕ)
    (hwf : LedgerWF a seen) (hnodup : (seen ++ runPosted a ts).Nodup) :
    LedgerWF (processAll a ts) (seen ++ runPosted a ts) := by
  induction ts generalizing a seen with
  | nil => simpa [processAll, runPosted] using hwf.mono []
  | cons t ts ih =>
      have hassoc : seen ++ runPosted a (t :: ts)
          = (seen ++ postedIds a t) ++ runPosted (a.process_transaction t) ts := by
        simp [runPosted, List.append_assoc]
      rw [hassoc] at hnodup ⊢
      have hnew : ∀ k ∈ postedIds a t, k ∉ seen := by
        intro k hk hks
        have hflat : (seen ++ (postedIds a t
            ++ runPosted (a.process_transaction t) ts)).Nodup := by
          simpa [List.append_assoc] using hnodup
        have hdisj := (List.nodup_append.mp hflat).2.2
        exact hdisj hks (List.mem_append_left _ hk)
      have hwf' := ledgerWF_step t hwf hnew
      have hfold : processAll a (t :: ts)
          = processAll (a.process_transaction t) ts := by
        simp [processAll]
      rw [hfold]
      exact ih _ _ hwf' hnodup

/-- C8: under the input contract that tx ids are unique among all
transactions ever successfully posted (`Nodup` of the posting trace), after
every applied transaction — i.e. for every prefix of the stream — the
account satisfies: the posted and held key sets are disjoint, the held
balance equals the sum of the stored amounts over held, and the total
balance equals available plus held. -/
theorem C8_invariants_hold (c : ℕ) (ts : List Transaction)
    (hcontract : (runPosted (Account.new c) ts).Nodup)
    (p : List Transaction) (hp : p <+: ts) :
    (processAll (Account.new c) p).invariants := by
  obtain ⟨rest, rfl⟩ := hp
  have hpre : (runPosted (Account.new c) p).Nodup := by
    rw [runPosted_append] at hcontract
    exact (List.nodup_append.mp hcontract).1
  have hwf0 : LedgerWF (Account.new c) [] := by
    constructor <;> simp [Account.new, mapKeys]
  have hrun := ledgerWF_run p (Account.new c) [] hwf0 (by simpa using hpre)
  exact ⟨hrun.disj, get_held_amount_eq_amountSum _, rfl⟩

/-- C8 witness: a one-deposit stream satisfies the uniqueness contract and
the resulting account satisfies the invariants. -/
theorem C8_invariants_hold_witness :
    (processAll (Account.new 1) [⟨.deposit, 1, 1, some 100⟩]).invariants :=
  C8_invariants_hold 1 [⟨.deposit, 1, 1, some 100⟩]
    (by simp [runPosted, postedIds]) [⟨.deposit, 1, 1, some 100⟩]
    ⟨[], by simp⟩

end ToyPayments
